import Mathlib

/-!
Verification development for the `multiloan` package
(`multiloan/utils.py` and `multiloan/loans.py`).

Modelling conventions:
* Python floats are modelled as exact rationals (`ℚ`).
* `round(x, 2)` is modelled as round-half-to-even on hundredths
  (Python's rounding rule), made exact over `ℚ`.
* `np.power(b, e)` with a real exponent is modelled by `qpow`, which is
  faithful whenever the exponent `n*t` is an integer (`(n*t).den = 1`);
  theorems about compounding carry that hypothesis, since irrational
  powers are not representable in an executable rational model.
* The unbounded `while` loops (`pay_loan`, `pay_remaining`) are modelled
  with an explicit fuel parameter; `none` means the loop consumed all its
  fuel without finishing, so termination is `∃ fuel, result ≠ none`.
* Python's `assert` failures (`AssertionError`) are modelled as explicit
  error results (the spec names them `ExhaustionError` for the stop
  threshold in `pay_loan` and `InsufficientPaymentError` in
  `MultiLoan.pay_one`).
* Python's truthiness test `if not amount` (used to substitute the default
  payment) is modelled by `effAmount`: `None` and `0` both fall back to the
  configured payment.
-/

namespace Multiloan

/-- Round-half-to-even of a rational to an integer; models Python's
`round` tie-breaking rule exactly over `ℚ`. -/
def roundHalfEven (x : ℚ) : ℤ :=
  let f := ⌊x⌋
  let frac := x - (f : ℚ)
  if frac < 1/2 then f
  else if 1/2 < frac then f + 1
  else if 2 ∣ f then f else f + 1

/-- Models Python's `round(x, 2)`: round to the nearest hundredth,
ties to even. -/
def round2 (x : ℚ) : ℚ := (roundHalfEven (100 * x) : ℚ) / 100

/-- Models `np.power(b, e)` for rational base and exponent.  The source
computes a real-number power; this executable model raises to the numerator
of `e` and is faithful exactly when `e` is an integer (`e.den = 1`), the
hypothesis carried by every theorem that uses it. -/
def qpow (b e : ℚ) : ℚ := b ^ e.num

/-- `utils.compint(P, r, n, t)`: `A = P * (1 + r / n) ** (n * t)`. -/
def compint (P r : ℚ) (n : ℕ) (t : ℚ) : ℚ :=
  P * qpow (1 + r / (n : ℚ)) ((n : ℚ) * t)

/-- `utils.payment_amount(balance, payment)`: `min(balance, payment)`. -/
def payment_amount (balance payment : ℚ) : ℚ := min balance payment

/-- `utils.single_payment(payment, P, r, n, t)`: compound the balance one
period, subtract the bounded payment, and round both results to 2 decimal
places.  Returns `(new principal, amount paid)`. -/
def single_payment (payment P r : ℚ) (n : ℕ) (t : ℚ) : ℚ × ℚ :=
  let P1 := compint P r n t
  let curr_pay := payment_amount P1 payment
  let P2 := P1 - curr_pay
  (round2 P2, round2 curr_pay)

/-- Outcome of `utils.pay_loan`'s `while` loop: either the lists of
balances and payments recorded for each period, or the `AssertionError`
raised when a balance exceeds the stop criteria (the spec's
`ExhaustionError`). -/
inductive PayLoanOut : Type
  | ok (balances payments : List ℚ)
  | exhausted
  deriving DecidableEq

/-- `utils.pay_loan(payment, P, r, n, t, stop)` with explicit fuel for the
`while P > 0` loop.  `none` means the fuel ran out with the loop still
running; `some` is the source function's actual outcome. -/
def pay_loan (payment r : ℚ) (n : ℕ) (t stop : ℚ) : ℚ → ℕ → Option PayLoanOut
  | P, 0 => if 0 < P then none else some (.ok [] [])
  | P, fuel + 1 =>
    if 0 < P then
      let res := single_payment payment P r n t
      if stop < res.1 then some .exhausted
      else
        match pay_loan payment r n t stop res.1 fuel with
        | some (.ok bs ps) => some (.ok (res.1 :: bs) (res.2 :: ps))
        | o => o
    else some (.ok [] [])

/-- Python truthiness of the `amount` argument: `if not amount: amount =
default` treats both `None` and `0` as missing. -/
def effAmount (amount : Option ℚ) (default : ℚ) : ℚ :=
  match amount with
  | none => default
  | some a => if a = 0 then default else a

/-- `loans.Loan`: immutable configuration plus the mutable history lists
`_balances` (`bals`) and `_payments` (`pays`). -/
structure Loan : Type where
  principal : ℚ
  rate : ℚ
  payment : ℚ
  n : ℕ
  t : ℚ
  stop : ℚ
  pays : List ℚ
  bals : List ℚ
  deriving DecidableEq

/-- `Loan.__init__`: store the configuration and `reset()`, so the history
starts at `[0]` / `[principal]`. -/
def mkLoan (principal rate payment : ℚ) (n : ℕ) (t stop : ℚ) : Loan :=
  { principal := principal, rate := rate, payment := payment, n := n,
    t := t, stop := stop, pays := [0], bals := [principal] }

/-- `Loan.reset()`: restore the history lists, keeping the configuration. -/
def loanReset (l : Loan) : Loan :=
  { l with pays := [0], bals := [l.principal] }

/-- `Loan.balance`: `self._balances[-1]`. -/
def loanBalance (l : Loan) : ℚ := l.bals.getLastD 0

/-- `Loan.totalpay`: `sum(self._payments)`. -/
def loanTotalpay (l : Loan) : ℚ := l.pays.sum

/-- `Loan.n_payments`: `len(self._payments) - 1`. -/
def loanNPayments (l : Loan) : ℕ := l.pays.length - 1

/-- `Loan.pay_one(amount)`: one `single_payment` at the effective amount,
appending the resulting payment and balance to the history. -/
def loanPayOne (l : Loan) (amount : Option ℚ) : Loan :=
  let a := effAmount amount l.payment
  let res := single_payment a (loanBalance l) l.rate l.n l.t
  { l with pays := l.pays ++ [res.2], bals := l.bals ++ [res.1] }

/-- `Loan.pay_remaining(amount)`: run `pay_loan` on the current balance and
append both result lists.  If `pay_loan` raises (stop criteria), the
exception propagates before the `+=` lines run, so the loan is returned
unchanged in the `.error` case.  `none` is exhausted fuel. -/
def loanPayRemaining (l : Loan) (amount : Option ℚ) (fuel : ℕ) :
    Option (Except Loan Loan) :=
  match pay_loan (effAmount amount l.payment) l.rate l.n l.t l.stop
      (loanBalance l) fuel with
  | none => none
  | some (.ok bs ps) =>
      some (.ok { l with pays := l.pays ++ ps, bals := l.bals ++ bs })
  | some .exhausted => some (.error l)

/-- Loan states reachable from construction through the public operations
(`pay_one`, `pay_remaining` — succeeding or failing — and `reset`).
A failing `pay_remaining` leaves the state unchanged (see
`loanPayRemaining`), so it adds no constructor. -/
inductive LoanReach : Loan → Prop
  | init (principal rate payment : ℚ) (n : ℕ) (t stop : ℚ) :
      LoanReach (mkLoan principal rate payment n t stop)
  | payOne {l : Loan} (amount : Option ℚ) :
      LoanReach l → LoanReach (loanPayOne l amount)
  | payRemaining {l l' : Loan} (amount : Option ℚ) (fuel : ℕ) :
      LoanReach l → loanPayRemaining l amount fuel = some (.ok l') →
      LoanReach l'
  | payRemainingFail {l l' : Loan} (amount : Option ℚ) (fuel : ℕ) :
      LoanReach l → loanPayRemaining l amount fuel = some (.error l') →
      LoanReach l'
  | reset {l : Loan} : LoanReach l → LoanReach (loanReset l)

/-- Lexicographic comparison used to model `np.argsort` on the rate list:
ascending by value, ties broken by original index (a stable ascending
argsort). -/
def lexLe (rs : List ℚ) (i j : ℕ) : Prop :=
  rs.getD i 0 < rs.getD j 0 ∨ (rs.getD i 0 = rs.getD j 0 ∧ i ≤ j)

instance lexLeDec (rs : List ℚ) : DecidableRel (lexLe rs) := fun i j => by
  unfold lexLe; infer_instance

/-- Stable ascending argsort of a list of rationals, modelling
`np.argsort(rates)`. -/
def argsortAsc (rs : List ℚ) : List ℕ :=
  List.insertionSort (lexLe rs) (List.range rs.length)

/-- `loans.MultiLoan`: member loans, the combined payment, the combined
history lists, and the precomputed rate order `np.argsort(rates)[::-1]`. -/
structure MultiLoan : Type where
  loans : List Loan
  payment : ℚ
  principal : ℚ
  pays : List ℚ
  bals : List ℚ
  rateOrder : List ℕ
  deriving DecidableEq

/-- `MultiLoan.reset()`: reset the combined history (recomputing the total
principal) and reset every member loan. -/
def multiLoanReset (ml : MultiLoan) : MultiLoan :=
  let principal := (ml.loans.map (·.principal)).sum
  { ml with
    loans := ml.loans.map loanReset
    principal := principal
    pays := [0]
    bals := [principal] }

/-- `MultiLoan.__init__` from an explicit loan list: store the loans and
payment, `reset()`, then order the loans by rate from highest to lowest. -/
def mkMultiLoan (loans : List Loan) (payment : ℚ) : MultiLoan :=
  multiLoanReset
    { loans := loans, payment := payment, principal := 0, pays := [0],
      bals := [0],
      rateOrder := (argsortAsc (loans.map (·.rate))).reverse }

/-- `MultiLoan.balance`: `self._balances[-1]`. -/
def multiBalance (ml : MultiLoan) : ℚ := ml.bals.getLastD 0

/-- `MultiLoan.totalpay`: `sum(self._payments)`. -/
def multiTotalpay (ml : MultiLoan) : ℚ := ml.pays.sum

/-- Placeholder loan used for (never reached) out-of-range list reads of
the source's integer-indexed dictionaries. -/
def dummyLoan : Loan := mkLoan 0 0 0 1 1 0

/-- Step 1 of `MultiLoan.pay_one`: the minimum contribution of each member,
`payment_amount(loan.payment, loan.balance)`, computed on the balance
before this period's compounding. -/
def minPays (loans : List Loan) : List ℚ :=
  loans.map (fun l => payment_amount l.payment (loanBalance l))

/-- Step 3 of `MultiLoan.pay_one`: walk the loans in descending-rate order
and, while surplus remains, grow each loan's allocation to the actual
payment `single_payment` would make with `remaining + already allocated`,
shrinking the surplus by the growth.  The `else: break` of the source is
the early return when the surplus is gone. -/
def allocResidual (loans : List Loan) (idx : ℕ) (curr : List ℚ)
    (remaining : ℚ) : ℚ :=
  (single_payment (remaining + curr.getD idx 0)
    (loanBalance (loans.getD idx dummyLoan)) (loans.getD idx dummyLoan).rate
    (loans.getD idx dummyLoan).n (loans.getD idx dummyLoan).t).2

/-- Step 3 continued: the loop body.  `allocResidual` is the source's
`residual_payment` (a speculative `single_payment` at `curr_remaining +
what has already been allocated`); the allocation is updated to it and the
surplus shrinks by the growth. -/
def allocLoop (loans : List Loan) : List ℕ → List ℚ → ℚ → List ℚ
  | [], curr, _ => curr
  | idx :: rest, curr, remaining =>
    if 0 < remaining then
      allocLoop loans rest
        (curr.set idx (allocResidual loans idx curr remaining))
        (remaining - (allocResidual loans idx curr remaining -
          curr.getD idx 0))
    else curr

/-- `MultiLoan.pay_one(amount)`: gather the members' minimum payments, fail
(`InsufficientPaymentError`, the source's `assert curr_remaining >= 0`) if
the effective combined amount does not cover them — before any mutation —
otherwise distribute the surplus along `rateOrder`, apply each member's
final allocation through its own `pay_one`, and append the combined
payment and combined balance. -/
def multiLoanPayOne (ml : MultiLoan) (amount : Option ℚ) :
    Except Unit MultiLoan :=
  let mins := minPays ml.loans
  let currMinPayments := mins.sum
  let recurAmount := effAmount amount ml.payment
  let currRemaining := recurAmount - currMinPayments
  if currRemaining < 0 then .error ()
  else
    let currPayments := allocLoop ml.loans ml.rateOrder mins currRemaining
    let newLoans := ml.loans.zipWith (fun l p => loanPayOne l (some p))
      currPayments
    let currTotalPayment := currPayments.sum
    let currBalance := (newLoans.map loanBalance).sum
    .ok { ml with
      loans := newLoans
      pays := ml.pays ++ [currTotalPayment]
      bals := ml.bals ++ [currBalance] }

/-- `MultiLoan.pay_remaining(amount)`: `while self.balance > 0:
self.pay_one(amount)`, with fuel.  An `InsufficientPaymentError` raised by
`pay_one` propagates; the iterations already completed keep their effect,
so the `.error` case carries the state at the moment of failure. -/
def multiLoanPayRemaining (amount : Option ℚ) :
    MultiLoan → ℕ → Option (Except MultiLoan MultiLoan)
  | ml, 0 => if 0 < multiBalance ml then none else some (.ok ml)
  | ml, fuel + 1 =>
    if 0 < multiBalance ml then
      match multiLoanPayOne ml amount with
      | .error _ => some (.error ml)
      | .ok ml' => multiLoanPayRemaining amount ml' fuel
    else some (.ok ml)

/-- The source's in-place `lb += [0] * nzeros` on a member's balances
(`nzeros ≤ 0` appends nothing, like Python's negative list repetition). -/
def padBals (nLen : ℕ) (l : Loan) : Loan :=
  { l with bals := l.bals ++ List.replicate (nLen - l.bals.length) 0 }

/-- The same in-place padding for a member's payments list. -/
def padPays (nLen : ℕ) (l : Loan) : Loan :=
  { l with pays := l.pays ++ List.replicate (nLen - l.pays.length) 0 }

/-- `MultiLoan.loan_balances`: pad each member's `_balances` with zeros up
to the combined history length and stack them.  The source's `lb +=
[0] * nzeros` extends the member's own list in place, so the accessor also
returns the portfolio with those (possibly) mutated members. -/
def loanBalancesAcc (ml : MultiLoan) : List (List ℚ) × MultiLoan :=
  let newLoans := ml.loans.map (padBals ml.bals.length)
  (newLoans.map (·.bals), { ml with loans := newLoans })

/-- `MultiLoan.loan_payments`: same shape as `loanBalancesAcc`, for the
members' `_payments` lists, with the same in-place padding (the source
also measures `len(self.balances)` here). -/
def loanPaymentsAcc (ml : MultiLoan) : List (List ℚ) × MultiLoan :=
  let newLoans := ml.loans.map (padPays ml.bals.length)
  (newLoans.map (·.pays), { ml with loans := newLoans })

/-- `MultiLoan.loan_totals`: `[loan.totalpay for loan in self.Loans]`
(pure, no mutation). -/
def loanTotals (ml : MultiLoan) : List ℚ := ml.loans.map loanTotalpay

/-- MultiLoan states reachable from construction through the public
operations.  A failing `pay_one` mutates nothing (the assert precedes all
mutation), so it adds no constructor; a failing `pay_remaining` keeps the
state reached by its completed iterations, carried by the `.error` case. -/
inductive MultiReach : MultiLoan → Prop
  | init (loans : List Loan) (payment : ℚ) :
      MultiReach (mkMultiLoan loans payment)
  | payOne {ml ml' : MultiLoan} (amount : Option ℚ) :
      MultiReach ml → multiLoanPayOne ml amount = .ok ml' → MultiReach ml'
  | payRemaining {ml ml' : MultiLoan} (amount : Option ℚ) (fuel : ℕ) :
      MultiReach ml → multiLoanPayRemaining amount ml fuel = some (.ok ml') →
      MultiReach ml'
  | payRemainingFail {ml ml' : MultiLoan} (amount : Option ℚ) (fuel : ℕ) :
      MultiReach ml →
      multiLoanPayRemaining amount ml fuel = some (.error ml') →
      MultiReach ml'
  | reset {ml : MultiLoan} : MultiReach ml → MultiReach (multiLoanReset ml)

/-! ### Arithmetic lemmas about the rounding primitives -/

theorem roundHalfEven_def (x : ℚ) :
    roundHalfEven x =
      if x - ⌊x⌋ < 1/2 then ⌊x⌋
      else if 1/2 < x - ⌊x⌋ then ⌊x⌋ + 1
      else if 2 ∣ ⌊x⌋ then ⌊x⌋ else ⌊x⌋ + 1 := rfl

theorem roundHalfEven_of_floor_half_lt {x : ℚ} {k : ℤ} (hk : ⌊x⌋ = k)
    (h : x - k < 1/2) : roundHalfEven x = k := by
  rw [roundHalfEven_def, hk, if_pos h]

theorem roundHalfEven_of_lt_floor_half {x : ℚ} {k : ℤ} (hk : ⌊x⌋ = k)
    (h : 1/2 < x - k) : roundHalfEven x = k + 1 := by
  rw [roundHalfEven_def, hk, if_neg (by linarith), if_pos h]

theorem roundHalfEven_of_tie_even {x : ℚ} {k : ℤ} (hk : ⌊x⌋ = k)
    (h : x - k = 1/2) (he : 2 ∣ k) : roundHalfEven x = k := by
  rw [roundHalfEven_def, hk, if_neg (by rw [h]; exact lt_irrefl _),
    if_neg (by rw [h]; exact lt_irrefl _), if_pos he]

theorem roundHalfEven_of_tie_odd {x : ℚ} {k : ℤ} (hk : ⌊x⌋ = k)
    (h : x - k = 1/2) (he : ¬ 2 ∣ k) : roundHalfEven x = k + 1 := by
  rw [roundHalfEven_def, hk, if_neg (by rw [h]; exact lt_irrefl _),
    if_neg (by rw [h]; exact lt_irrefl _), if_neg he]

theorem roundHalfEven_le (x : ℚ) : (roundHalfEven x : ℚ) ≤ x + 1/2 := by
  rw [roundHalfEven_def]
  have h1 : (⌊x⌋ : ℚ) ≤ x := Int.floor_le x
  split
  · linarith
  · split
    · push_cast
      linarith
    · split
      · linarith
      · push_cast
        rename_i h2 h3 _
        linarith [not_lt.mp h3]

theorem le_roundHalfEven (x : ℚ) : x - 1/2 ≤ (roundHalfEven x : ℚ) := by
  rw [roundHalfEven_def]
  have h1 : x < (⌊x⌋ : ℚ) + 1 := Int.lt_floor_add_one x
  split
  · rename_i h2
    linarith [not_lt.mp (not_lt.mpr (le_of_lt h2))]
  · split
    · push_cast
      linarith
    · split
      · rename_i h2 h3 _
        linarith [not_lt.mp h2]
      · push_cast
        linarith

theorem roundHalfEven_nonneg {x : ℚ} (h : 0 ≤ x) : 0 ≤ roundHalfEven x := by
  have hf : 0 ≤ ⌊x⌋ := Int.floor_nonneg.mpr h
  rw [roundHalfEven_def]
  split
  · exact hf
  · split
    · omega
    · split
      · exact hf
      · omega

theorem roundHalfEven_intCast (k : ℤ) : roundHalfEven (k : ℚ) = k := by
  apply roundHalfEven_of_floor_half_lt (Int.floor_intCast k)
  norm_num

theorem round2_le (x : ℚ) : round2 x ≤ x + 1/200 := by
  unfold round2
  have := roundHalfEven_le (100 * x)
  linarith

theorem le_round2 (x : ℚ) : x - 1/200 ≤ round2 x := by
  unfold round2
  have := le_roundHalfEven (100 * x)
  linarith

theorem round2_nonneg {x : ℚ} (h : 0 ≤ x) : 0 ≤ round2 x := by
  unfold round2
  have : (0 : ℚ) ≤ (roundHalfEven (100 * x) : ℚ) := by
    exact_mod_cast roundHalfEven_nonneg (by linarith)
  linarith

theorem round2_zero : round2 0 = 0 := by
  unfold round2
  rw [show (100 * 0 : ℚ) = ((0 : ℤ) : ℚ) by norm_num, roundHalfEven_intCast]
  norm_num

/-- `round2` always lands on a whole number of hundredths. -/
theorem round2_mul_100 (x : ℚ) :
    100 * round2 x = (roundHalfEven (100 * x) : ℚ) := by
  unfold round2
  field_simp

/-- Evaluator for `compint` with one compounding event per period
(`n = 1`, `t = 1`), the configuration used by the concrete instances. -/
theorem compint_one_one (P r : ℚ) : compint P r 1 1 = P * (1 + r) := by
  unfold compint qpow
  norm_num

/-! ### C2: a sufficient payment zeroes the balance in one period -/

/-- C2.  For every non-negative balance and rate, positive `n` and `t`,
and desired payment at least the compounded balance, `single_payment`
returns new balance exactly `0` and an actual payment equal to the
compounded balance rounded to 2 decimal places.  Confirmed as stated. -/
theorem single_payment_zeroes {payment P r : ℚ} {n : ℕ} {t : ℚ}
    (hP : 0 ≤ P) (hr : 0 ≤ r) (hn : 0 < n) (ht : 0 < t)
    (hpay : compint P r n t ≤ payment) :
    single_payment payment P r n t = (0, round2 (compint P r n t)) := by
  simp only [single_payment, payment_amount]
  rw [min_eq_left hpay]
  simp [round2_zero]

/-- Witness for C2 at `P = 100`, `r = 0`, `n = t = 1`, payment `200`. -/
theorem single_payment_zeroes_witness :
    single_payment 200 100 0 1 1 = (0, round2 (compint 100 0 1 1)) :=
  single_payment_zeroes (by norm_num) le_rfl one_pos one_pos
    (by rw [compint_one_one]; norm_num)

/-! ### Concrete evaluators for `round2` and `single_payment` -/

theorem round2_eval_lt {x : ℚ} {k : ℤ} (h1 : (k : ℚ) ≤ 100 * x)
    (h2 : 100 * x < (k : ℚ) + 1/2) : round2 x = (k : ℚ) / 100 := by
  unfold round2
  rw [roundHalfEven_of_floor_half_lt
    (Int.floor_eq_iff.mpr ⟨h1, by push_cast; linarith⟩) (by linarith)]

theorem round2_eval_gt {x : ℚ} {k : ℤ} (h1 : (k : ℚ) + 1/2 < 100 * x)
    (h2 : 100 * x < (k : ℚ) + 1) : round2 x = ((k : ℚ) + 1) / 100 := by
  unfold round2
  rw [roundHalfEven_of_lt_floor_half
    (Int.floor_eq_iff.mpr ⟨by linarith, by push_cast; linarith⟩)
    (by linarith)]
  push_cast
  ring

theorem round2_eval_tie_even {x : ℚ} {k : ℤ} (h : 100 * x = (k : ℚ) + 1/2)
    (he : 2 ∣ k) : round2 x = (k : ℚ) / 100 := by
  unfold round2
  rw [roundHalfEven_of_tie_even
    (Int.floor_eq_iff.mpr ⟨by linarith, by push_cast; linarith⟩)
    (by linarith) he]

/-- Evaluator for `single_payment` with `n = 1`, `t = 1`. -/
theorem single_payment_one_one (payment P r : ℚ) :
    single_payment payment P r 1 1 =
      (round2 (P * (1 + r) - min (P * (1 + r)) payment),
        round2 (min (P * (1 + r)) payment)) := by
  simp only [single_payment, payment_amount, compint_one_one]

/-! ### Structural lemmas about `pay_loan` -/

theorem pay_loan_of_nonpos {payment r : ℚ} {n : ℕ} {t stop P : ℚ}
    (h : ¬ 0 < P) (fuel : ℕ) :
    pay_loan payment r n t stop P fuel = some (.ok [] []) := by
  cases fuel <;> simp [pay_loan, h]

theorem pay_loan_succ_pos {payment r : ℚ} {n : ℕ} {t stop P : ℚ}
    (h : 0 < P) (fuel : ℕ) :
    pay_loan payment r n t stop P (fuel + 1) =
      (if stop < (single_payment payment P r n t).1 then some .exhausted
       else
        match pay_loan payment r n t stop (single_payment payment P r n t).1
            fuel with
        | some (.ok bs ps) =>
            some (.ok ((single_payment payment P r n t).1 :: bs)
              ((single_payment payment P r n t).2 :: ps))
        | o => o) := by
  simp [pay_loan, h]

/-- More fuel never changes a result the loop already reached. -/
theorem pay_loan_mono {payment r : ℚ} {n : ℕ} {t stop : ℚ} :
    ∀ {fuel fuel' : ℕ} {P : ℚ} {o : PayLoanOut},
      pay_loan payment r n t stop P fuel = some o → fuel ≤ fuel' →
      pay_loan payment r n t stop P fuel' = some o := by
  intro fuel
  induction fuel with
  | zero =>
    intro fuel' P o h _
    by_cases hP : 0 < P
    · simp [pay_loan, hP] at h
    · rw [pay_loan_of_nonpos hP] at h
      rw [pay_loan_of_nonpos hP]
      exact h
  | succ fuel ih =>
    intro fuel' P o h hle
    by_cases hP : 0 < P
    · obtain ⟨fuel'', rfl⟩ : ∃ k, fuel' = k + 1 := by
        cases fuel' with
        | zero => omega
        | succ k => exact ⟨k, rfl⟩
      rw [pay_loan_succ_pos hP] at h
      rw [pay_loan_succ_pos hP]
      by_cases hstop : stop < (single_payment payment P r n t).1
      · rw [if_pos hstop] at h ⊢
        exact h
      · rw [if_neg hstop] at h ⊢
        cases hrec : pay_loan payment r n t stop
            (single_payment payment P r n t).1 fuel with
        | none => rw [hrec] at h; simp at h
        | some out =>
          rw [ih hrec (by omega)]
          rw [hrec] at h
          exact h
    · rw [pay_loan_of_nonpos hP] at h
      rw [pay_loan_of_nonpos hP]
      exact h

/-- A successful `pay_loan` records equally many balances and payments. -/
theorem pay_loan_ok_length {payment r : ℚ} {n : ℕ} {t stop : ℚ} :
    ∀ {fuel : ℕ} {P : ℚ} {bs ps : List ℚ},
      pay_loan payment r n t stop P fuel = some (.ok bs ps) →
      bs.length = ps.length := by
  intro fuel
  induction fuel with
  | zero =>
    intro P bs ps h
    by_cases hP : 0 < P
    · simp [pay_loan, hP] at h
    · rw [pay_loan_of_nonpos hP] at h
      simp only [Option.some.injEq, PayLoanOut.ok.injEq] at h
      obtain ⟨h1, h2⟩ := h
      rw [← h1, ← h2]
  | succ fuel ih =>
    intro P bs ps h
    by_cases hP : 0 < P
    · rw [pay_loan_succ_pos hP] at h
      by_cases hstop : stop < (single_payment payment P r n t).1
      · rw [if_pos hstop] at h
        simp at h
      · rw [if_neg hstop] at h
        cases hrec : pay_loan payment r n t stop
            (single_payment payment P r n t).1 fuel with
        | none => rw [hrec] at h; simp at h
        | some out =>
          rw [hrec] at h
          cases out with
          | ok bs' ps' =>
            simp only [Option.some.injEq, PayLoanOut.ok.injEq] at h
            obtain ⟨h1, h2⟩ := h
            rw [← h1, ← h2]
            simp [ih hrec]
          | exhausted => simp at h
    · rw [pay_loan_of_nonpos hP] at h
      simp only [Option.some.injEq, PayLoanOut.ok.injEq] at h
      obtain ⟨h1, h2⟩ := h
      rw [← h1, ← h2]

/-! ### Inversion lemmas for `loanPayRemaining` -/

/-- A successful `pay_remaining` appends exactly the lists `pay_loan`
produced. -/
theorem loanPayRemaining_ok_parts {l l' : Loan} {amount : Option ℚ}
    {fuel : ℕ} (h : loanPayRemaining l amount fuel = some (.ok l')) :
    ∃ bs ps,
      pay_loan (effAmount amount l.payment) l.rate l.n l.t l.stop
        (loanBalance l) fuel = some (.ok bs ps) ∧
      l' = { l with pays := l.pays ++ ps, bals := l.bals ++ bs } := by
  unfold loanPayRemaining at h
  cases hres : pay_loan (effAmount amount l.payment) l.rate l.n l.t l.stop
      (loanBalance l) fuel with
  | none => rw [hres] at h; simp at h
  | some out =>
    rw [hres] at h
    cases out with
    | ok bs ps =>
      simp only [Option.some.injEq, Except.ok.injEq] at h
      exact ⟨bs, ps, rfl, h.symm⟩
    | exhausted => simp at h

/-- A failing `pay_remaining` returns the loan unchanged (the exception is
raised inside `pay_loan`, before the history merge). -/
theorem loanPayRemaining_error_eq {l l' : Loan} {amount : Option ℚ}
    {fuel : ℕ} (h : loanPayRemaining l amount fuel = some (.error l')) :
    l' = l := by
  unfold loanPayRemaining at h
  cases hres : pay_loan (effAmount amount l.payment) l.rate l.n l.t l.stop
      (loanBalance l) fuel with
  | none => rw [hres] at h; simp at h
  | some out =>
    rw [hres] at h
    cases out with
    | ok bs ps => simp at h
    | exhausted =>
      simp only [Option.some.injEq, Except.error.injEq] at h
      exact h.symm

/-! ### C8: the Loan history invariant under every operation sequence -/

/-- Invariant content for a reachable loan: histories have equal positive
length. -/
theorem loanReach_lengths {l : Loan} (h : LoanReach l) :
    l.pays.length = l.bals.length ∧ l.bals ≠ [] := by
  induction h with
  | init principal rate payment n t stop => simp [mkLoan]
  | payOne amount _ ih =>
    simp only [loanPayOne, List.length_append, List.length_singleton]
    constructor
    · omega
    · simp
  | payRemaining amount fuel _ heq ih =>
    obtain ⟨bs, ps, hres, rfl⟩ := loanPayRemaining_ok_parts heq
    have hlen := pay_loan_ok_length hres
    simp only [List.length_append]
    constructor
    · omega
    · simp [ih.2]
  | payRemainingFail amount fuel _ heq ih =>
    rw [loanPayRemaining_error_eq heq]
    exact ih
  | reset _ _ => simp [loanReset]

/-- C8.  For every Loan reachable through `pay_one`, `pay_remaining`
(succeeding or failing) and `reset`, the two history lists have equal
length, the balance is the last recorded balance, `totalpay` is the sum of
recorded payments, and `n_payments` is the history length minus one.
Confirmed as stated. -/
theorem loan_invariant {l : Loan} (h : LoanReach l) :
    l.pays.length = l.bals.length ∧
    loanBalance l = l.bals.getLastD 0 ∧
    loanTotalpay l = l.pays.sum ∧
    loanNPayments l = l.pays.length - 1 :=
  ⟨(loanReach_lengths h).1, rfl, rfl, rfl⟩

/-- Witness for C8 on a freshly constructed loan. -/
theorem loan_invariant_witness :
    (mkLoan 100 (1/20) 10 1 1 1000000).pays.length =
      (mkLoan 100 (1/20) 10 1 1 1000000).bals.length ∧
    loanBalance (mkLoan 100 (1/20) 10 1 1 1000000) =
      (mkLoan 100 (1/20) 10 1 1 1000000).bals.getLastD 0 ∧
    loanTotalpay (mkLoan 100 (1/20) 10 1 1 1000000) =
      (mkLoan 100 (1/20) 10 1 1 1000000).pays.sum ∧
    loanNPayments (mkLoan 100 (1/20) 10 1 1 1000000) =
      (mkLoan 100 (1/20) 10 1 1 1000000).pays.length - 1 :=
  loan_invariant (LoanReach.init 100 (1/20) 10 1 1 1000000)

/-! ### C4: what a failing `pay_remaining` leaves behind -/

/-- C4 (amended).  When `pay_remaining` fails with the stop-threshold
error, the Debt is left exactly as it was before the call: the failing
run's completed periods are discarded (the merge into the history only
happens on success), while progress from earlier calls is kept. -/
theorem payRemaining_fail_unchanged (l : Loan) (amount : Option ℚ)
    (fuel : ℕ) (l' : Loan)
    (h : loanPayRemaining l amount fuel = some (.error l')) :
    l'.bals = l.bals ∧ l'.pays = l.pays := by
  rw [loanPayRemaining_error_eq h]
  exact ⟨rfl, rfl⟩

theorem round2_int (k : ℤ) : round2 ((k : ℚ)) = (k : ℚ) := by
  unfold round2
  rw [show (100 : ℚ) * k = ((100 * k : ℤ) : ℚ) by push_cast; ring,
    roundHalfEven_intCast]
  push_cast
  field_simp

/-- Counterexample input for C4: principal 100, rate 1 (doubling each
period), payment 0, stop 300.  The first period succeeds internally
(balance 200 ≤ 300), the second trips the stop threshold (400 > 300). -/
def exLoan4 : Loan := mkLoan 100 1 0 1 1 300

theorem exLoan4_step1 : single_payment 0 100 1 1 1 = (200, 0) := by
  rw [single_payment_one_one, min_eq_right (by norm_num : (0:ℚ) ≤ 100 * (1 + 1))]
  rw [round2_zero]
  norm_num
  exact_mod_cast round2_int 200

theorem exLoan4_step2 : single_payment 0 200 1 1 1 = (400, 0) := by
  rw [single_payment_one_one, min_eq_right (by norm_num : (0:ℚ) ≤ 200 * (1 + 1))]
  rw [round2_zero]
  norm_num
  exact_mod_cast round2_int 400

/-- On `exLoan4`, `pay_remaining()` trips the stop threshold on its second
period (the first lands on 200 ≤ 300, the second on 400 > 300) and
returns the loan unchanged. -/
theorem exLoan4_run :
    loanPayRemaining exLoan4 none 2 = some (.error exLoan4) := by
  have hp : pay_loan (effAmount none exLoan4.payment) exLoan4.rate exLoan4.n
      exLoan4.t exLoan4.stop (loanBalance exLoan4) 2 = some .exhausted := by
    show pay_loan 0 1 1 1 300 100 2 = some .exhausted
    rw [show (2:ℕ) = 1 + 1 from rfl, pay_loan_succ_pos (by norm_num),
      exLoan4_step1]
    norm_num
    rw [pay_loan_succ_pos (by norm_num), exLoan4_step2]
    norm_num
  unfold loanPayRemaining
  rw [hp]

/-- Counterexample to C4 as stated.  On `exLoan4`, `pay_remaining()` fails
with the stop-threshold error after one period was completed internally
(balance 200), yet the Debt's histories still hold only the pre-call state
`[100]` / `[0]`: the claim's "histories contain every period completed
before the failing one" would require `[100, 200]`. -/
theorem payRemaining_fail_keeps_nothing :
    loanPayRemaining exLoan4 none 2 = some (.error exLoan4) ∧
    exLoan4.bals = [100] ∧ exLoan4.pays = [0] ∧
    ([100] : List ℚ) ≠ [100, 200] :=
  ⟨exLoan4_run, rfl, rfl, by simp⟩

/-- Witness for the amended C4 at the concrete failing run on `exLoan4`:
the post-failure histories are the pre-call ones. -/
theorem payRemaining_fail_unchanged_witness :
    exLoan4.bals = exLoan4.bals ∧ exLoan4.pays = exLoan4.pays :=
  payRemaining_fail_unchanged exLoan4 none 2 exLoan4 exLoan4_run

/-! ### C9: signs of the values recorded by a successful run -/

theorem getLastD_of_ne_nil {α : Type} {l : List α} (h : l ≠ []) (a b : α) :
    l.getLastD a = l.getLastD b := by
  cases l with
  | nil => exact absurd rfl h
  | cons x xs =>
    rw [List.getLastD_cons, List.getLastD_cons]

theorem pay_loan_ok_ne_nil_pos {payment r : ℚ} {n : ℕ} {t stop P : ℚ}
    {fuel : ℕ} {bs ps : List ℚ}
    (h : pay_loan payment r n t stop P fuel = some (.ok bs ps))
    (hne : bs ≠ []) : 0 < P := by
  by_contra hP
  rw [pay_loan_of_nonpos hP] at h
  simp only [Option.some.injEq, PayLoanOut.ok.injEq] at h
  exact hne h.1.symm

theorem pay_loan_ok_nil_nonpos {payment r : ℚ} {n : ℕ} {t stop P : ℚ}
    {fuel : ℕ} {ps : List ℚ}
    (h : pay_loan payment r n t stop P fuel = some (.ok [] ps)) :
    ¬ 0 < P := by
  intro hP
  cases fuel with
  | zero => simp [pay_loan, hP] at h
  | succ fuel =>
    rw [pay_loan_succ_pos hP] at h
    by_cases hstop : stop < (single_payment payment P r n t).1
    · rw [if_pos hstop] at h
      simp at h
    · rw [if_neg hstop] at h
      cases hrec : pay_loan payment r n t stop
          (single_payment payment P r n t).1 fuel with
      | none => rw [hrec] at h; simp at h
      | some out =>
        rw [hrec] at h
        cases out <;> simp at h

/-- The two rounded components of `single_payment` are non-negative as soon
as the balance, the payment and the compounding growth factor are. -/
theorem single_payment_nonneg {payment P r : ℚ} {n : ℕ} {t : ℚ}
    (hP : 0 ≤ P) (hpay : 0 ≤ payment)
    (hg : 0 ≤ qpow (1 + r / (n : ℚ)) ((n : ℚ) * t)) :
    0 ≤ (single_payment payment P r n t).1 ∧
    0 ≤ (single_payment payment P r n t).2 := by
  have hcomp : 0 ≤ compint P r n t := mul_nonneg hP hg
  constructor
  · apply round2_nonneg
    have := min_le_left (compint P r n t) payment
    simp only [single_payment, payment_amount]
    linarith
  · apply round2_nonneg
    simp only [single_payment, payment_amount]
    exact le_min hcomp hpay

/-- Sign pattern of a successful `pay_loan` run: all recorded payments are
non-negative, intermediate balances are strictly positive, and the last
recorded balance (if any period ran) is exactly 0. -/
theorem pay_loan_ok_signs {payment r : ℚ} {n : ℕ} {t stop : ℚ}
    (hpay : 0 ≤ payment)
    (hg : 0 ≤ qpow (1 + r / (n : ℚ)) ((n : ℚ) * t)) :
    ∀ {fuel : ℕ} {P : ℚ} {bs ps : List ℚ}, 0 ≤ P →
      pay_loan payment r n t stop P fuel = some (.ok bs ps) →
      (∀ i, i + 1 < bs.length → 0 < bs.getD i 0) ∧
      bs.getLastD 0 = 0 ∧ (∀ p ∈ ps, 0 ≤ p) := by
  intro fuel
  induction fuel with
  | zero =>
    intro P bs ps hP h
    by_cases hpos : 0 < P
    · simp [pay_loan, hpos] at h
    · rw [pay_loan_of_nonpos hpos] at h
      simp only [Option.some.injEq, PayLoanOut.ok.injEq] at h
      obtain ⟨h1, h2⟩ := h
      subst h1; subst h2
      refine ⟨by intro i hi; simp at hi, rfl, by intro p hp; simp at hp⟩
  | succ fuel ih =>
    intro P bs ps hP h
    by_cases hpos : 0 < P
    · rw [pay_loan_succ_pos hpos] at h
      by_cases hstop : stop < (single_payment payment P r n t).1
      · rw [if_pos hstop] at h
        simp at h
      · rw [if_neg hstop] at h
        cases hrec : pay_loan payment r n t stop
            (single_payment payment P r n t).1 fuel with
        | none => rw [hrec] at h; simp at h
        | some out =>
          rw [hrec] at h
          cases out with
          | exhausted => simp at h
          | ok bs' ps' =>
            simp only [Option.some.injEq, PayLoanOut.ok.injEq] at h
            obtain ⟨h1, h2⟩ := h
            subst h1; subst h2
            have hsp := single_payment_nonneg (le_of_lt hpos) hpay hg
            have hrest := ih hsp.1 hrec
            refine ⟨?_, ?_, ?_⟩
            · intro i hi
              cases i with
              | zero =>
                simp only [List.getD_cons_zero]
                simp only [List.length_cons] at hi
                have hne : bs' ≠ [] := by
                  intro hnil
                  rw [hnil] at hi
                  simp at hi
                exact pay_loan_ok_ne_nil_pos hrec hne
              | succ i =>
                simp only [List.getD_cons_succ]
                exact hrest.1 i (by simpa using hi)
            · by_cases hne : bs' = []
              · subst hne
                have hz := pay_loan_ok_nil_nonpos hrec
                have : (single_payment payment P r n t).1 = 0 :=
                  le_antisymm (not_lt.mp hz) hsp.1
                simp [List.getLastD_cons, this]
              · rw [List.getLastD_cons]
                rw [getLastD_of_ne_nil hne _ 0]
                exact hrest.2.1
            · intro p hp
              rcases List.mem_cons.mp hp with h | h
              · rw [h]; exact hsp.2
              · exact hrest.2.2 p h
    · rw [pay_loan_of_nonpos hpos] at h
      simp only [Option.some.injEq, PayLoanOut.ok.injEq] at h
      obtain ⟨h1, h2⟩ := h
      subst h1; subst h2
      refine ⟨by intro i hi; simp at hi, rfl, by intro p hp; simp at hp⟩

/-- C9 (amended).  In a successful `pay_remaining()` run with a
non-negative effective payment and a non-negative compounding growth
factor, every balance the run appends is strictly positive except the
final one, which is exactly 0, and every appended payment is non-negative
(a positive amount can round down to a recorded payment of 0). -/
theorem payRemaining_ok_signs {l l' : Loan} {amount : Option ℚ} {fuel : ℕ}
    (hpay : 0 ≤ effAmount amount l.payment)
    (hg : 0 ≤ qpow (1 + l.rate / (l.n : ℚ)) ((l.n : ℚ) * l.t))
    (hbal : 0 ≤ loanBalance l)
    (h : loanPayRemaining l amount fuel = some (.ok l')) :
    (∀ i, i + 1 < (l'.bals.drop l.bals.length).length →
      0 < (l'.bals.drop l.bals.length).getD i 0) ∧
    (l'.bals.drop l.bals.length).getLastD 0 = 0 ∧
    (∀ p ∈ l'.pays.drop l.pays.length, 0 ≤ p) := by
  obtain ⟨bs, ps, hres, rfl⟩ := loanPayRemaining_ok_parts h
  have hsigns := pay_loan_ok_signs hpay hg hbal hres
  simpa [List.drop_left] using hsigns

/-- Counterexample input for C9: a balance of one cent, rate 0, recurring
payment of half a cent. -/
def exLoan9 : Loan := mkLoan (1/100) 0 (1/200) 1 1 1000000

theorem exLoan9_step : single_payment (1/200) (1/100) 0 1 1 = (0, 0) := by
  have htie : round2 (1/200 : ℚ) = 0 := by
    rw [round2_eval_tie_even (k := 0) (by norm_num) ⟨0, by ring⟩]
    norm_num
  rw [single_payment_one_one,
    min_eq_right (by norm_num : (1/200 : ℚ) ≤ 1/100 * (1 + 0))]
  norm_num [htie]

/-- Counterexample to C9 as stated.  On `exLoan9`, `pay_remaining()`
succeeds in a single period, but the one recorded payment is `0` — the
half-cent actual payment rounds to zero — contradicting "every recorded
payment appended by the run is strictly positive". -/
theorem payRemaining_ok_zero_payment :
    loanPayRemaining exLoan9 none 1 =
      some (.ok { exLoan9 with pays := [0, 0], bals := [1/100, 0] }) ∧
    ¬ (∀ p ∈ (({ exLoan9 with pays := [0, 0], bals := [1/100, 0] } :
        Loan).pays.drop exLoan9.pays.length), 0 < p) := by
  constructor
  · have hp : pay_loan (effAmount none exLoan9.payment) exLoan9.rate
        exLoan9.n exLoan9.t exLoan9.stop (loanBalance exLoan9) 1 =
        some (.ok [0] [0]) := by
      show pay_loan (1/200) 0 1 1 1000000 (1/100) 1 = some (.ok [0] [0])
      rw [show (1:ℕ) = 0 + 1 from rfl, pay_loan_succ_pos (by norm_num),
        exLoan9_step]
      norm_num
      rw [pay_loan_of_nonpos (by norm_num)]
    unfold loanPayRemaining
    rw [hp]
    rfl
  · intro hall
    have := hall 0 (by simp [exLoan9, mkLoan])
    exact absurd this (lt_irrefl 0)

/-- Witness for the amended C9 at a run that pays a 100 balance off with a
single 100 payment. -/
theorem payRemaining_ok_signs_witness :
    (∀ i, i + 1 <
        (({ mkLoan 100 0 200 1 1 1000000 with
            pays := [0, 100], bals := [100, 0] } : Loan).bals.drop
          (mkLoan 100 0 200 1 1 1000000).bals.length).length →
      0 < (({ mkLoan 100 0 200 1 1 1000000 with
            pays := [0, 100], bals := [100, 0] } : Loan).bals.drop
          (mkLoan 100 0 200 1 1 1000000).bals.length).getD i 0) ∧
    (({ mkLoan 100 0 200 1 1 1000000 with
        pays := [0, 100], bals := [100, 0] } : Loan).bals.drop
      (mkLoan 100 0 200 1 1 1000000).bals.length).getLastD 0 = 0 ∧
    (∀ p ∈ ({ mkLoan 100 0 200 1 1 1000000 with
        pays := [0, 100], bals := [100, 0] } : Loan).pays.drop
      (mkLoan 100 0 200 1 1 1000000).pays.length, 0 ≤ p) := by
  have hstep : single_payment 200 100 0 1 1 = (0, 100) := by
    have h100 : round2 (100 : ℚ) = 100 := by exact_mod_cast round2_int 100
    rw [single_payment_one_one,
      min_eq_left (by norm_num : (100 : ℚ) * (1 + 0) ≤ 200)]
    norm_num [round2_zero, h100]
  have h : loanPayRemaining (mkLoan 100 0 200 1 1 1000000) none 1 =
      some (.ok { mkLoan 100 0 200 1 1 1000000 with
        pays := [0, 100], bals := [100, 0] }) := by
    have hp : pay_loan
        (effAmount none (mkLoan 100 0 200 1 1 1000000).payment)
        (mkLoan 100 0 200 1 1 1000000).rate
        (mkLoan 100 0 200 1 1 1000000).n (mkLoan 100 0 200 1 1 1000000).t
        (mkLoan 100 0 200 1 1 1000000).stop
        (loanBalance (mkLoan 100 0 200 1 1 1000000)) 1 =
        some (.ok [0] [100]) := by
      show pay_loan 200 0 1 1 1000000 100 1 = some (.ok [0] [100])
      rw [show (1:ℕ) = 0 + 1 from rfl, pay_loan_succ_pos (by norm_num),
        hstep]
      norm_num
      rw [pay_loan_of_nonpos (by norm_num)]
    unfold loanPayRemaining
    rw [hp]
    rfl
  exact payRemaining_ok_signs (by norm_num [effAmount, mkLoan])
    (by norm_num [qpow, mkLoan]) (by norm_num [loanBalance, mkLoan]) h

/-! ### C1: termination of `pay_remaining` under a sufficient payment -/

theorem one_le_qpow {b e : ℚ} (hb : 1 ≤ b) (hden : e.den = 1)
    (he : 0 ≤ e) : 1 ≤ qpow b e := by
  unfold qpow
  have hnum : 0 ≤ e.num := Rat.num_nonneg.mpr he
  rw [← Int.toNat_of_nonneg hnum, zpow_natCast]
  exact one_le_pow₀ hb

theorem one_lt_qpow {b e : ℚ} (hb : 1 < b) (hden : e.den = 1)
    (he : 0 < e) : 1 < qpow b e := by
  unfold qpow
  have hnum : 0 < e.num := Rat.num_pos.mpr he
  rw [← Int.toNat_of_nonneg (le_of_lt hnum), zpow_natCast]
  exact one_lt_pow₀ hb (by omega)

theorem round2_is_hundredth (x : ℚ) : ∃ k : ℤ, round2 x = (k : ℚ) / 100 :=
  ⟨roundHalfEven (100 * x), rfl⟩

theorem getLastD_append_right {α : Type} (l₁ : List α) {l₂ : List α}
    (h : l₂ ≠ []) (d : α) : (l₁ ++ l₂).getLastD d = l₂.getLastD d := by
  induction l₁ with
  | nil => rfl
  | cons x xs ih =>
    rw [List.cons_append, List.getLastD_cons,
      getLastD_of_ne_nil (by simp [h]) x d, ih]

/-- One loop step under a payment that beats the per-period interest on the
starting balance by more than the rounding quantum: the new balance is
non-negative and either zero or strictly smaller than the old one. -/
theorem single_payment_progress {payment P B r : ℚ} {n : ℕ} {t : ℚ}
    (hg : 1 ≤ qpow (1 + r / (n : ℚ)) ((n : ℚ) * t))
    (hP : 0 < P) (hPB : P ≤ B)
    (hpay : compint B r n t - B + 1/200 < payment) :
    0 ≤ (single_payment payment P r n t).1 ∧
      ((single_payment payment P r n t).1 = 0 ∨
        (single_payment payment P r n t).1 < P) := by
  have hcompP : compint P r n t = P * qpow (1 + r / (n : ℚ)) ((n : ℚ) * t) :=
    rfl
  have hcompB : compint B r n t = B * qpow (1 + r / (n : ℚ)) ((n : ℚ) * t) :=
    rfl
  have hint : compint P r n t - P ≤ compint B r n t - B := by
    rw [hcompP, hcompB]
    have := mul_le_mul_of_nonneg_right hPB
      (by linarith : 0 ≤ qpow (1 + r / (n : ℚ)) ((n : ℚ) * t) - 1)
    nlinarith
  by_cases hcase : compint P r n t ≤ payment
  · have h1 : (single_payment payment P r n t).1 = 0 := by
      simp only [single_payment, payment_amount]
      rw [min_eq_left hcase]
      simp [round2_zero]
    rw [h1]
    exact ⟨le_refl 0, Or.inl rfl⟩
  · push_neg at hcase
    have h1 : (single_payment payment P r n t).1 =
        round2 (compint P r n t - payment) := by
      simp only [single_payment, payment_amount]
      rw [min_eq_right (le_of_lt hcase)]
    rw [h1]
    constructor
    · exact round2_nonneg (by linarith)
    · right
      have := round2_le (compint P r n t - payment)
      linarith

/-- Fuel-indexed termination of `pay_loan`: if the payment exceeds the
per-period interest on the starting balance `B` by more than half a cent,
the loop reaches exactly 0 within `100•B`-ish periods, never touching the
stop threshold. -/
theorem pay_loan_pays_off {payment r : ℚ} {n : ℕ} {t stop B : ℚ}
    (hg : 1 ≤ qpow (1 + r / (n : ℚ)) ((n : ℚ) * t))
    (hpay : compint B r n t - B + 1/200 < payment)
    (hstop : B ≤ stop) :
    ∀ m : ℕ, ∀ P : ℚ, 0 < P → P ≤ B → (⌈(100 : ℚ) * P⌉).toNat ≤ m →
      ∃ bs ps, pay_loan payment r n t stop P (m + 1) = some (.ok bs ps) ∧
        bs.getLastD 1 = 0 := by
  intro m
  induction m using Nat.strong_induction_on with
  | _ m IH =>
    intro P hP hPB hm
    obtain ⟨hf0, hfcase⟩ := single_payment_progress hg hP hPB hpay
    have hfle : (single_payment payment P r n t).1 ≤ stop := by
      rcases hfcase with h | h
      · rw [h]; linarith
      · linarith
    rw [pay_loan_succ_pos hP, if_neg (not_lt.mpr hfle)]
    by_cases hfpos : 0 < (single_payment payment P r n t).1
    · have hflt : (single_payment payment P r n t).1 < P := by
        rcases hfcase with h | h
        · rw [h] at hfpos; exact absurd hfpos (lt_irrefl 0)
        · exact h
      -- the new balance is a whole number of hundredths, so the integer
      -- measure strictly decreases
      have hsp1 : (single_payment payment P r n t).1 =
          round2 (compint P r n t -
            payment_amount (compint P r n t) payment) := rfl
      obtain ⟨k, hk⟩ := round2_is_hundredth
        (compint P r n t - payment_amount (compint P r n t) payment)
      rw [← hsp1] at hk
      have hk0 : 0 ≤ k := by
        have : (0 : ℚ) ≤ (k : ℚ) / 100 := hk ▸ hf0
        have : (0 : ℚ) ≤ (k : ℚ) := by linarith
        exact_mod_cast this
      have hceilf : ⌈(100 : ℚ) * (single_payment payment P r n t).1⌉ = k := by
        rw [hk, show (100 : ℚ) * ((k : ℚ) / 100) = (k : ℚ) by field_simp]
        exact Int.ceil_intCast k
      have hklt : k < ⌈(100 : ℚ) * P⌉ := by
        apply Int.lt_ceil.mpr
        have : (k : ℚ) / 100 < P := hk ▸ hflt
        linarith
      have hmeas : (⌈(100 : ℚ) * (single_payment payment P r n t).1⌉).toNat <
          (⌈(100 : ℚ) * P⌉).toNat := by
        rw [hceilf]; omega
      obtain ⟨bs, ps, hrec, hlast⟩ :=
        IH (⌈(100 : ℚ) * (single_payment payment P r n t).1⌉).toNat
          (by omega) (single_payment payment P r n t).1 hfpos
          (le_of_lt (lt_of_lt_of_le hflt hPB)) (le_refl _)
      have hmono := pay_loan_mono hrec (by omega :
        (⌈(100 : ℚ) * (single_payment payment P r n t).1⌉).toNat + 1 ≤ m)
      rw [hmono]
      refine ⟨(single_payment payment P r n t).1 :: bs,
        (single_payment payment P r n t).2 :: ps, rfl, ?_⟩
      have hbs : bs ≠ [] := by
        intro h0
        rw [h0] at hlast
        simp at hlast
      rw [List.getLastD_cons, getLastD_of_ne_nil hbs _ 1]
      exact hlast
    · rw [pay_loan_of_nonpos hfpos]
      refine ⟨[(single_payment payment P r n t).1],
        [(single_payment payment P r n t).2], rfl, ?_⟩
      have : (single_payment payment P r n t).1 = 0 :=
        le_antisymm (not_lt.mp hfpos) hf0
      rw [List.getLastD_cons, this]
      rfl

/-- C1 (amended).  For a Debt with positive balance, non-negative rate,
positive `n` and `t` (with `n*t` an integer so the power is exact), balance
within the stop threshold, and a recurring payment that exceeds the
interest accrued per period on the current balance *by more than half a
cent* (the rounding quantum), `pay_remaining()` terminates with balance
exactly 0.  The extra half-cent margin is forced by the counterexample
`payRemaining_stalls`: a payment that exceeds the per-period interest by
less than the rounding quantum can leave the rounded balance unchanged
forever. -/
theorem payRemaining_pays_off (l : Loan)
    (hbal : 0 < loanBalance l) (hr : 0 ≤ l.rate) (hn : 0 < l.n)
    (ht : 0 < l.t) (hden : ((l.n : ℚ) * l.t).den = 1)
    (hstop : loanBalance l ≤ l.stop)
    (hpay : compint (loanBalance l) l.rate l.n l.t - loanBalance l + 1/200 <
      l.payment) :
    ∃ fuel l', loanPayRemaining l none fuel = some (.ok l') ∧
      loanBalance l' = 0 := by
  have hg : 1 ≤ qpow (1 + l.rate / (l.n : ℚ)) ((l.n : ℚ) * l.t) := by
    apply one_le_qpow _ hden
    · positivity
    · have hb : 0 < l.rate / (l.n : ℚ) + 1 := by positivity
      have : (0 : ℚ) ≤ l.rate / (l.n : ℚ) := by positivity
      linarith
  obtain ⟨bs, ps, hrun, hlast⟩ := pay_loan_pays_off hg hpay hstop
    (⌈(100 : ℚ) * loanBalance l⌉).toNat (loanBalance l) hbal (le_refl _)
    (le_refl _)
  have heff : effAmount none l.payment = l.payment := rfl
  refine ⟨(⌈(100 : ℚ) * loanBalance l⌉).toNat + 1,
    { l with pays := l.pays ++ ps, bals := l.bals ++ bs }, ?_, ?_⟩
  · unfold loanPayRemaining
    rw [heff, hrun]
  · have hbs : bs ≠ [] := by
      intro h0
      rw [h0] at hlast
      simp at hlast
    show (l.bals ++ bs).getLastD 0 = 0
    rw [getLastD_append_right _ hbs, getLastD_of_ne_nil hbs 0 1]
    exact hlast

/-- Witness for the amended C1: balance 100, rate 0, payment 50. -/
theorem payRemaining_pays_off_witness :
    ∃ fuel l', loanPayRemaining (mkLoan 100 0 50 1 1 1000000) none fuel =
      some (.ok l') ∧ loanBalance l' = 0 := by
  apply payRemaining_pays_off
  · show (0 : ℚ) < 100
    norm_num
  · norm_num [mkLoan]
  · norm_num [mkLoan]
  · norm_num [mkLoan]
  · norm_num [mkLoan]
  · show (100 : ℚ) ≤ 1000000
    norm_num
  · show compint 100 0 1 1 - 100 + 1/200 < 50
    rw [compint_one_one]
    norm_num

/-- Counterexample input for C1: balance 100, per-period interest 0.006,
recurring payment 0.01 — the payment exceeds the interest accrued each
period, yet rounding puts the balance back at 100.00 every time. -/
def exLoan1 : Loan := mkLoan 100 (3/50000) (1/100) 1 1 1000000

theorem exLoan1_step :
    single_payment (1/100) 100 (3/50000) 1 1 = (100, 1/100) := by
  rw [single_payment_one_one,
    min_eq_right (by norm_num : (1/100 : ℚ) ≤ 100 * (1 + 3/50000))]
  have h1 : round2 (100 * (1 + 3/50000) - 1/100 : ℚ) = 100 := by
    rw [round2_eval_gt (k := 9999) (by norm_num) (by norm_num)]
    norm_num
  have h2 : round2 (1/100 : ℚ) = 1/100 := by
    rw [round2_eval_lt (k := 1) (by norm_num) (by norm_num)]
    norm_num
  rw [h1, h2]

theorem exLoan1_loop :
    ∀ fuel, pay_loan (1/100) (3/50000) 1 1 1000000 100 fuel = none := by
  intro fuel
  induction fuel with
  | zero => simp [pay_loan]
  | succ fuel ih =>
    rw [pay_loan_succ_pos (by norm_num), exLoan1_step]
    norm_num
    rw [ih]

/-- Counterexample to C1 as stated.  On `exLoan1` the recurring payment
(0.01) strictly exceeds the interest accrued per period (0.006 at balance
100, and the balance never moves), yet `pay_remaining()` never terminates:
after each period the rounded balance is exactly 100 again, so the
`while P > 0` loop runs forever and never reaches 0 (nor the stop
threshold). -/
theorem payRemaining_stalls :
    ¬ ∃ fuel res, loanPayRemaining exLoan1 none fuel = some res := by
  rintro ⟨fuel, res, h⟩
  unfold loanPayRemaining at h
  rw [show pay_loan (effAmount none exLoan1.payment) exLoan1.rate exLoan1.n
      exLoan1.t exLoan1.stop (loanBalance exLoan1) fuel = none from
    exLoan1_loop fuel] at h
  simp at h

/-! ### C6: a zero effective payment diverges to the stop threshold -/

/-- With a zero payment and per-period interest above the rounding quantum,
each loop step grows the balance by at least the fixed margin `δ`. -/
theorem single_payment_zero_grows {P B r : ℚ} {n : ℕ} {t : ℚ}
    (hB : 0 < B) (hBP : B ≤ P)
    (hgrow : 1/200 < compint B r n t - B) :
    P + (compint B r n t - B - 1/200) ≤ (single_payment 0 P r n t).1 := by
  have hcompB : compint B r n t = B * qpow (1 + r / (n : ℚ)) ((n : ℚ) * t) :=
    rfl
  have hcompP : compint P r n t = P * qpow (1 + r / (n : ℚ)) ((n : ℚ) * t) :=
    rfl
  have hg1 : 1 < qpow (1 + r / (n : ℚ)) ((n : ℚ) * t) := by
    by_contra hle
    push_neg at hle
    have : compint B r n t - B ≤ 0 := by
      rw [hcompB]
      nlinarith
    linarith
  have hint : compint B r n t - B ≤ compint P r n t - P := by
    rw [hcompB, hcompP]
    nlinarith
  have hcompPpos : 0 ≤ compint P r n t := by
    rw [hcompP]
    nlinarith
  have h1 : (single_payment 0 P r n t).1 = round2 (compint P r n t) := by
    simp only [single_payment, payment_amount]
    rw [min_eq_right hcompPpos]
    norm_num
  rw [h1]
  have := le_round2 (compint P r n t)
  linarith

/-- Fuel-indexed divergence of `pay_loan` at payment 0: the balance grows
past any stop threshold and the loop fails with the stop error. -/
theorem pay_loan_zero_diverges {r : ℚ} {n : ℕ} {t stop B : ℚ}
    (hB : 0 < B) (hgrow : 1/200 < compint B r n t - B) :
    ∀ m : ℕ, ∀ P : ℚ, B ≤ P → P ≤ stop →
      (⌈(stop - P) / (compint B r n t - B - 1/200) + 1⌉).toNat ≤ m →
      ∃ fuel, pay_loan 0 r n t stop P fuel = some .exhausted := by
  set δ : ℚ := compint B r n t - B - 1/200 with hδdef
  have hδ : 0 < δ := by rw [hδdef]; linarith
  intro m
  induction m using Nat.strong_induction_on with
  | _ m IH =>
    intro P hBP hPstop hm
    have hPpos : 0 < P := lt_of_lt_of_le hB hBP
    have hfgrow : P + δ ≤ (single_payment 0 P r n t).1 :=
      single_payment_zero_grows hB hBP hgrow
    by_cases hfstop : stop < (single_payment 0 P r n t).1
    · exact ⟨1, by rw [show (1:ℕ) = 0 + 1 from rfl, pay_loan_succ_pos hPpos,
        if_pos hfstop]⟩
    · push_neg at hfstop
      have hmeas : (⌈(stop - (single_payment 0 P r n t).1) / δ + 1⌉).toNat <
          (⌈(stop - P) / δ + 1⌉).toNat := by
        have h1 : stop - (single_payment 0 P r n t).1 ≤ stop - P - δ := by
          linarith
        have h2 : (stop - (single_payment 0 P r n t).1) / δ ≤
            (stop - P - δ) / δ := by
          exact (div_le_div_right hδ).mpr h1
        have h3 : (stop - P - δ) / δ = (stop - P) / δ - 1 := by
          field_simp
        have h4 : ⌈(stop - (single_payment 0 P r n t).1) / δ + 1⌉ ≤
            ⌈(stop - P) / δ⌉ :=
          Int.ceil_le_ceil (by linarith)
        have h5 : ⌈(stop - P) / δ + 1⌉ = ⌈(stop - P) / δ⌉ + 1 :=
          Int.ceil_add_one _
        have h6 : 0 < ⌈(stop - (single_payment 0 P r n t).1) / δ + 1⌉ := by
          apply Int.ceil_pos.mpr
          have : 0 ≤ (stop - (single_payment 0 P r n t).1) / δ := by
            apply div_nonneg _ (le_of_lt hδ)
            linarith
          linarith
        omega
      obtain ⟨fuel, hfuel⟩ := IH
        (⌈(stop - (single_payment 0 P r n t).1) / δ + 1⌉).toNat
        (by omega) (single_payment 0 P r n t).1
        (by linarith) hfstop (le_refl _)
      refine ⟨fuel + 1, ?_⟩
      rw [pay_loan_succ_pos hPpos, if_neg (not_lt.mpr hfstop), hfuel]

/-- C6 (amended).  A Debt whose payment is zero *in effect* — the
configured payment is 0 and the override is either absent or the (falsy)
ad hoc amount 0, which Python's `if not amount` maps back to the
configured payment — with positive balance within the stop threshold,
positive rate, integer `n*t`, and per-period interest above the rounding
quantum (half a cent), always eventually fails `pay_remaining` with the
stop-threshold error, leaving the Debt unchanged.  Two restrictions are
forced by counterexamples: an ad hoc 0 on a Debt with a nonzero
configured payment actually pays with the configured amount (see
`payRemaining_adhoc_zero_pays_off`), and per-period interest at or below
half a cent can round away entirely, stalling the loop forever instead of
reaching the stop threshold. -/
theorem payRemaining_zero_payment_exhausts (l : Loan) (amount : Option ℚ)
    (hpay0 : l.payment = 0) (ham : amount = none ∨ amount = some 0)
    (hbal : 0 < loanBalance l) (hr : 0 < l.rate)
    (hgrow : 1/200 < compint (loanBalance l) l.rate l.n l.t - loanBalance l)
    (hstop : loanBalance l ≤ l.stop) :
    ∃ fuel, loanPayRemaining l amount fuel = some (.error l) := by
  have heff : effAmount amount l.payment = 0 := by
    rcases ham with rfl | rfl
    · exact hpay0
    · simp [effAmount, hpay0]
  obtain ⟨fuel, hfuel⟩ := pay_loan_zero_diverges hbal hgrow
    (⌈(l.stop - loanBalance l) /
      (compint (loanBalance l) l.rate l.n l.t - loanBalance l - 1/200) +
      1⌉).toNat (loanBalance l) (le_refl _) hstop (le_refl _)
  refine ⟨fuel, ?_⟩
  unfold loanPayRemaining
  rw [heff, hfuel]

/-- Witness for the amended C6: balance 100, rate 1 (doubling), configured
payment 0, stop 1000. -/
theorem payRemaining_zero_payment_exhausts_witness :
    ∃ fuel, loanPayRemaining (mkLoan 100 1 0 1 1 1000) none fuel =
      some (.error (mkLoan 100 1 0 1 1 1000)) := by
  apply payRemaining_zero_payment_exhausts
  · rfl
  · exact Or.inl rfl
  · show (0 : ℚ) < 100
    norm_num
  · show (0 : ℚ) < 1
    norm_num
  · show (1/200 : ℚ) < compint 100 1 1 1 - 100
    rw [compint_one_one]
    norm_num
  · show (100 : ℚ) ≤ 1000
    norm_num

/-- Counterexample input for C6: configured payment 1000 dwarfs the
doubling balance of 100. -/
def exLoan6 : Loan := mkLoan 100 1 1000 1 1 1000000

theorem exLoan6_step : single_payment 1000 100 1 1 1 = (0, 200) := by
  have h200 : round2 (200 : ℚ) = 200 := by exact_mod_cast round2_int 200
  rw [single_payment_one_one,
    min_eq_left (by norm_num : (100 : ℚ) * (1 + 1) ≤ 1000)]
  norm_num [round2_zero, h200]

theorem exLoan6_run : pay_loan 1000 1 1 1 1000000 100 1 =
    some (.ok [0] [200]) := by
  rw [show (1:ℕ) = 0 + 1 from rfl, pay_loan_succ_pos (by norm_num),
    exLoan6_step]
  norm_num
  rw [pay_loan_of_nonpos (by norm_num)]

/-- Counterexample to C6 as stated.  `exLoan6` has positive balance and
positive rate, and the caller passes an ad hoc amount of exactly 0 — the
claim says this run must eventually fail with the stop-threshold error.
In fact Python's `if not amount` treats the 0 as missing, substitutes the
configured payment 1000, and the debt is paid off in one period: no fuel
ever produces the error. -/
theorem payRemaining_adhoc_zero_pays_off :
    ¬ ∃ fuel l', loanPayRemaining exLoan6 (some 0) fuel =
      some (.error l') := by
  rintro ⟨fuel, l', h⟩
  unfold loanPayRemaining at h
  cases fuel with
  | zero =>
    rw [show pay_loan (effAmount (some 0) exLoan6.payment) exLoan6.rate
        exLoan6.n exLoan6.t exLoan6.stop (loanBalance exLoan6) 0 = none by
      show pay_loan 1000 1 1 1 1000000 100 0 = none
      simp [pay_loan]] at h
    simp at h
  | succ fuel =>
    rw [show pay_loan (effAmount (some 0) exLoan6.payment) exLoan6.rate
        exLoan6.n exLoan6.t exLoan6.stop (loanBalance exLoan6) (fuel + 1) =
        some (.ok [0] [200]) from
      pay_loan_mono exLoan6_run (by omega)] at h
    simp at h

/-! ### The MultiLoan step invariant (C7, C10) -/

/-- Unfolded form of `multiLoanPayOne` (the let bindings of the definition
zeta-reduce away). -/
theorem multiLoanPayOne_def (ml : MultiLoan) (amount : Option ℚ) :
    multiLoanPayOne ml amount =
      if effAmount amount ml.payment - (minPays ml.loans).sum < 0 then
        .error ()
      else
        .ok { ml with
          loans := ml.loans.zipWith (fun l p => loanPayOne l (some p))
            (allocLoop ml.loans ml.rateOrder (minPays ml.loans)
              (effAmount amount ml.payment - (minPays ml.loans).sum))
          pays := ml.pays ++ [(allocLoop ml.loans ml.rateOrder
            (minPays ml.loans)
            (effAmount amount ml.payment - (minPays ml.loans).sum)).sum]
          bals := ml.bals ++ [((ml.loans.zipWith
            (fun l p => loanPayOne l (some p))
            (allocLoop ml.loans ml.rateOrder (minPays ml.loans)
              (effAmount amount ml.payment -
                (minPays ml.loans).sum))).map loanBalance).sum] } := rfl

theorem allocLoop_length (loans : List Loan) :
    ∀ (order : List ℕ) (curr : List ℚ) (rem : ℚ),
      (allocLoop loans order curr rem).length = curr.length := by
  intro order
  induction order with
  | nil => intro curr rem; rfl
  | cons idx rest ih =>
    intro curr rem
    rw [allocLoop]
    split
    · rw [ih, List.length_set]
    · rfl

theorem mem_zipWith {α β γ : Type} {f : α → β → γ} :
    ∀ {as : List α} {bs : List β} {c : γ}, c ∈ as.zipWith f bs →
      ∃ a ∈ as, ∃ b ∈ bs, c = f a b := by
  intro as
  induction as with
  | nil => intro bs c h; simp [List.zipWith] at h
  | cons a as ih =>
    intro bs c h
    cases bs with
    | nil => simp [List.zipWith] at h
    | cons b bs =>
      rw [List.zipWith_cons_cons] at h
      rcases List.mem_cons.mp h with h | h
      · exact ⟨a, List.mem_cons_self a as, b, List.mem_cons_self b bs, h⟩
      · obtain ⟨a', ha', b', hb', hc⟩ := ih h
        exact ⟨a', List.mem_cons_of_mem a ha', b',
          List.mem_cons_of_mem b hb', hc⟩

theorem map_zipWith_eq_map {α β γ δ : Type} (f : γ → δ) (g : α → β → γ)
    (f' : α → δ) :
    ∀ (as : List α) (bs : List β), as.length ≤ bs.length →
      (∀ a ∈ as, ∀ b ∈ bs, f (g a b) = f' a) →
      (as.zipWith g bs).map f = as.map f' := by
  intro as
  induction as with
  | nil => intro bs _ _; rfl
  | cons a as ih =>
    intro bs hlen hcond
    cases bs with
    | nil => simp at hlen
    | cons b bs =>
      rw [List.zipWith_cons_cons, List.map_cons, List.map_cons,
        hcond a (List.mem_cons_self a as) b (List.mem_cons_self b bs),
        ih bs (by simpa using hlen)
          (fun a' ha' b' hb' => hcond a' (List.mem_cons_of_mem a ha') b'
            (List.mem_cons_of_mem b hb'))]

/-- The invariant tying a MultiLoan's combined history to its members':
all histories are aligned in length, every combined balance entry is the
sum of the members' entries, and the first entry is the sum of the
members' principals. -/
def MInv (ml : MultiLoan) : Prop :=
  ml.bals ≠ [] ∧
  ml.pays.length = ml.bals.length ∧
  (∀ l ∈ ml.loans,
    l.bals.length = ml.bals.length ∧ l.pays.length = ml.pays.length) ∧
  (∀ k, k < ml.bals.length →
    ml.bals.getD k 0 = (ml.loans.map (fun l => l.bals.getD k 0)).sum) ∧
  ml.bals.getD 0 0 = (ml.loans.map (·.principal)).sum

theorem minv_reset (ml : MultiLoan) : MInv (multiLoanReset ml) := by
  refine ⟨by simp [multiLoanReset], by simp [multiLoanReset], ?_, ?_, ?_⟩
  · intro l hl
    simp only [multiLoanReset] at hl
    obtain ⟨l0, _, rfl⟩ := List.mem_map.mp hl
    simp [multiLoanReset, loanReset]
  · intro k hk
    have hk0 : k = 0 := by
      simp only [multiLoanReset, List.length_cons, List.length_nil] at hk
      omega
    subst hk0
    simp only [multiLoanReset, List.getD_cons_zero, List.map_map]
    exact congrArg List.sum
      (List.map_congr_left fun l _ => by simp [loanReset, Function.comp])
  · simp only [multiLoanReset, List.getD_cons_zero, List.map_map]
    exact congrArg List.sum
      (List.map_congr_left fun l _ => by simp [loanReset, Function.comp])

theorem minv_payOne {ml ml' : MultiLoan} {amount : Option ℚ}
    (h : multiLoanPayOne ml amount = .ok ml') (hinv : MInv ml) :
    MInv ml' := by
  obtain ⟨hne, hplen, hmem, hsum, hhead⟩ := hinv
  rw [multiLoanPayOne_def] at h
  split at h
  · simp at h
  · simp only [Except.ok.injEq] at h
    subst h
    set cp := allocLoop ml.loans ml.rateOrder (minPays ml.loans)
      (effAmount amount ml.payment - (minPays ml.loans).sum) with hcp
    have hcplen : ml.loans.length ≤ cp.length := by
      rw [hcp, allocLoop_length]
      unfold minPays
      rw [List.length_map]
    set nl := ml.loans.zipWith (fun l p => loanPayOne l (some p)) cp
      with hnl
    have hmem' : ∀ x ∈ nl, ∃ l ∈ ml.loans, ∃ p, x = loanPayOne l (some p) :=
      by
      intro x hx
      obtain ⟨l, hl, p, hp, hxeq⟩ := mem_zipWith (hnl ▸ hx)
      exact ⟨l, hl, p, hxeq⟩
    have hLB : ∀ (l : Loan) (p : ℚ),
        (loanPayOne l (some p)).bals = l.bals ++
          [(single_payment (effAmount (some p) l.payment) (loanBalance l)
            l.rate l.n l.t).1] := fun l p => rfl
    have hLP : ∀ (l : Loan) (p : ℚ),
        (loanPayOne l (some p)).pays = l.pays ++
          [(single_payment (effAmount (some p) l.payment) (loanBalance l)
            l.rate l.n l.t).2] := fun l p => rfl
    have hnewlen : (ml.bals ++ [(nl.map loanBalance).sum]).length =
        ml.bals.length + 1 := by
      rw [List.length_append, List.length_singleton]
    refine ⟨by simp, ?_, ?_, ?_, ?_⟩
    · simp only [List.length_append, List.length_singleton]
      omega
    · intro x hx
      obtain ⟨l, hl, p, rfl⟩ := hmem' x hx
      obtain ⟨hbl, hpl⟩ := hmem l hl
      constructor
      · rw [hLB, List.length_append, List.length_singleton,
          List.length_append, List.length_singleton, hbl]
      · rw [hLP, List.length_append, List.length_singleton,
          List.length_append, List.length_singleton, hpl]
    · intro k hk
      rw [hnewlen] at hk
      rcases Nat.lt_succ_iff_lt_or_eq.mp hk with hk | hk
      · rw [List.getD_append _ _ _ _ hk, hsum k hk]
        congr 1
        rw [hnl]
        refine (map_zipWith_eq_map (fun l => l.bals.getD k 0)
          (fun l p => loanPayOne l (some p)) (fun l => l.bals.getD k 0)
          ml.loans cp hcplen ?_).symm
        intro l hl p _
        show (loanPayOne l (some p)).bals.getD k 0 = l.bals.getD k 0
        rw [hLB]
        exact List.getD_append _ _ _ _ (by rw [(hmem l hl).1]; exact hk)
      · subst hk
        rw [show (ml.bals ++ [(nl.map loanBalance).sum]).getD
            ml.bals.length 0 = (nl.map loanBalance).sum by simp]
        congr 1
        apply List.map_congr_left
        intro x hx
        obtain ⟨l, hl, p, rfl⟩ := hmem' x hx
        obtain ⟨hbl, _⟩ := hmem l hl
        show loanBalance (loanPayOne l (some p)) =
          (loanPayOne l (some p)).bals.getD ml.bals.length 0
        have hv : loanBalance (loanPayOne l (some p)) =
            (single_payment (effAmount (some p) l.payment) (loanBalance l)
              l.rate l.n l.t).1 := by
          unfold loanBalance
          rw [hLB, getLastD_append_right _ (by simp)]
          rfl
        rw [hv, hLB, ← hbl]
        simp
    · have h0 : 0 < ml.bals.length := List.length_pos.mpr hne
      rw [List.getD_append _ _ _ _ h0, hhead]
      congr 1
      rw [hnl]
      exact (map_zipWith_eq_map (·.principal)
        (fun l p => loanPayOne l (some p)) (·.principal) ml.loans cp hcplen
        (fun l _ p _ => rfl)).symm

/-- Both outcomes of `pay_remaining` (final state on success, state at the
moment of failure) preserve the invariant. -/
theorem minv_payRemaining {amount : Option ℚ} :
    ∀ {fuel : ℕ} {ml : MultiLoan} {res : Except MultiLoan MultiLoan},
      multiLoanPayRemaining amount ml fuel = some res → MInv ml →
      MInv (match res with | .ok m => m | .error m => m) := by
  intro fuel
  induction fuel with
  | zero =>
    intro ml res h hinv
    rw [multiLoanPayRemaining] at h
    by_cases hb : 0 < multiBalance ml
    · rw [if_pos hb] at h; simp at h
    · rw [if_neg hb] at h
      simp only [Option.some.injEq] at h
      subst h
      exact hinv
  | succ fuel ih =>
    intro ml res h hinv
    rw [multiLoanPayRemaining] at h
    by_cases hb : 0 < multiBalance ml
    · rw [if_pos hb] at h
      cases hPO : multiLoanPayOne ml amount with
      | error e =>
        rw [hPO] at h
        simp only [Option.some.injEq] at h
        subst h
        exact hinv
      | ok ml'' =>
        rw [hPO] at h
        exact ih h (minv_payOne hPO hinv)
    · rw [if_neg hb] at h
      simp only [Option.some.injEq] at h
      subst h
      exact hinv

/-- Every reachable MultiLoan satisfies the invariant. -/
theorem reach_minv {ml : MultiLoan} (h : MultiReach ml) : MInv ml := by
  induction h with
  | init loans payment => exact minv_reset _
  | payOne amount _ hPO ih => exact minv_payOne hPO ih
  | payRemaining amount fuel _ heq ih =>
    exact minv_payRemaining heq ih
  | payRemainingFail amount fuel _ heq ih =>
    exact minv_payRemaining heq ih
  | reset _ _ => exact minv_reset _

/-! ### C7: the combined balance is the sum of the member balances -/

/-- C7.  For every Portfolio driven only through its own operations, at
every step `k` of its history the recorded combined balance equals the sum
of the member debts' recorded balances at step `k`; in particular the
initial combined balance (step 0, preserved from construction) equals the
sum of the member principals.  Confirmed as stated (member histories stay
aligned with the combined history, so no padding is ever needed). -/
theorem multiLoan_balance_is_sum {ml : MultiLoan} (h : MultiReach ml) :
    (∀ k, k < ml.bals.length →
      ml.bals.getD k 0 = (ml.loans.map (fun l => l.bals.getD k 0)).sum) ∧
    ml.bals.getD 0 0 = (ml.loans.map (·.principal)).sum := by
  obtain ⟨_, _, _, hsum, hhead⟩ := reach_minv h
  exact ⟨hsum, hhead⟩

/-- Witness for C7 on a freshly built two-debt portfolio. -/
theorem multiLoan_balance_is_sum_witness :
    (∀ k, k < (mkMultiLoan [mkLoan 1000 3 200 1 1 1000000,
        mkLoan 10000 5 300 1 1 1000000] 100000).bals.length →
      (mkMultiLoan [mkLoan 1000 3 200 1 1 1000000,
        mkLoan 10000 5 300 1 1 1000000] 100000).bals.getD k 0 =
      ((mkMultiLoan [mkLoan 1000 3 200 1 1 1000000,
        mkLoan 10000 5 300 1 1 1000000] 100000).loans.map
          (fun l => l.bals.getD k 0)).sum) ∧
    (mkMultiLoan [mkLoan 1000 3 200 1 1 1000000,
      mkLoan 10000 5 300 1 1 1000000] 100000).bals.getD 0 0 =
    ((mkMultiLoan [mkLoan 1000 3 200 1 1 1000000,
      mkLoan 10000 5 300 1 1 1000000] 100000).loans.map
        (·.principal)).sum :=
  multiLoan_balance_is_sum
    (MultiReach.init [mkLoan 1000 3 200 1 1 1000000,
      mkLoan 10000 5 300 1 1 1000000] 100000)

/-! ### C10: the per-member accessors are read-only on reachable states -/

theorem loanBalancesAcc_snd (ml : MultiLoan) :
    (loanBalancesAcc ml).2 =
      { ml with loans := ml.loans.map (padBals ml.bals.length) } := rfl

theorem loanPaymentsAcc_snd (ml : MultiLoan) :
    (loanPaymentsAcc ml).2 =
      { ml with loans := ml.loans.map (padPays ml.bals.length) } := rfl

/-- C10.  On every reachable Portfolio, reading `loan_balances`,
`loan_payments` (and the pure `loan_totals`) leaves the Portfolio and
every member Debt unchanged: member histories are always exactly as long
as the combined history, so the in-place zero padding the source aliases
into the members (`lb += [0] * nzeros`) is always empty.  Confirmed; two
consecutive reads therefore return the same values, and later operations
run from an unchanged state. -/
theorem multiLoan_accessors_readonly {ml : MultiLoan} (h : MultiReach ml) :
    (loanBalancesAcc ml).2 = ml ∧ (loanPaymentsAcc ml).2 = ml := by
  obtain ⟨hne, hplen, hmem, _, _⟩ := reach_minv h
  constructor
  · rw [loanBalancesAcc_snd]
    have hid : ml.loans.map (padBals ml.bals.length) = ml.loans := by
      have h1 : ∀ l ∈ ml.loans, padBals ml.bals.length l = id l := by
        intro l hl
        unfold padBals
        rw [(hmem l hl).1, Nat.sub_self]
        simp
      rw [List.map_congr_left h1, List.map_id]
    rw [hid]
  · rw [loanPaymentsAcc_snd]
    have hid : ml.loans.map (padPays ml.bals.length) = ml.loans := by
      have h1 : ∀ l ∈ ml.loans, padPays ml.bals.length l = id l := by
        intro l hl
        unfold padPays
        rw [(hmem l hl).2.trans hplen, Nat.sub_self]
        simp
      rw [List.map_congr_left h1, List.map_id]
    rw [hid]

/-- Witness for C10 on a freshly built two-debt portfolio. -/
theorem multiLoan_accessors_readonly_witness :
    (loanBalancesAcc (mkMultiLoan [mkLoan 1000 3 200 1 1 1000000,
        mkLoan 10000 5 300 1 1 1000000] 100000)).2 =
      mkMultiLoan [mkLoan 1000 3 200 1 1 1000000,
        mkLoan 10000 5 300 1 1 1000000] 100000 ∧
    (loanPaymentsAcc (mkMultiLoan [mkLoan 1000 3 200 1 1 1000000,
        mkLoan 10000 5 300 1 1 1000000] 100000)).2 =
      mkMultiLoan [mkLoan 1000 3 200 1 1 1000000,
        mkLoan 10000 5 300 1 1 1000000] 100000 :=
  multiLoan_accessors_readonly
    (MultiReach.init [mkLoan 1000 3 200 1 1 1000000,
      mkLoan 10000 5 300 1 1 1000000] 100000)

/-! ### C3: the insufficient-payment failure condition -/

/-- C3 (amended).  `pay_one` on a Portfolio fails with
`InsufficientPaymentError` exactly when the *effective* combined amount —
the caller's override when supplied and nonzero, else the Portfolio's
configured payment (a zero override is falsy in Python and falls back to
the configured payment, see `multiLoan_zero_override_uses_default`) — is
less than the sum over members of `min(balance_i, payment_i)` computed on
each debt's balance before this period's compounding; and on success the
allocation walk is seeded with the surplus, the effective amount minus
that sum. -/
theorem multiLoanPayOne_error_iff (ml : MultiLoan) (amount : Option ℚ) :
    (multiLoanPayOne ml amount = .error () ↔
      effAmount amount ml.payment < (minPays ml.loans).sum) ∧
    (∀ ml', multiLoanPayOne ml amount = .ok ml' →
      ml'.pays = ml.pays ++ [(allocLoop ml.loans ml.rateOrder
        (minPays ml.loans)
        (effAmount amount ml.payment - (minPays ml.loans).sum)).sum]) := by
  constructor
  · constructor
    · intro h
      by_contra hc
      push_neg at hc
      rw [multiLoanPayOne_def, if_neg (by linarith)] at h
      simp at h
    · intro h
      rw [multiLoanPayOne_def, if_pos (by linarith)]
  · intro ml' h
    rw [multiLoanPayOne_def] at h
    split at h
    · simp at h
    · simp only [Except.ok.injEq] at h
      subst h
      rfl

/-- Witness for the amended C3 on an empty portfolio with combined payment
100: the payment covers the (empty) minimums, `pay_one` succeeds, and the
appended combined payment is the allocation-walk total seeded with the
surplus. -/
theorem multiLoanPayOne_error_iff_witness :
    ({ mkMultiLoan ([] : List Loan) 100 with
        pays := [0, 0], bals := [0, 0] } : MultiLoan).pays =
      (mkMultiLoan ([] : List Loan) 100).pays ++
        [(allocLoop (mkMultiLoan ([] : List Loan) 100).loans
          (mkMultiLoan ([] : List Loan) 100).rateOrder
          (minPays (mkMultiLoan ([] : List Loan) 100).loans)
          (effAmount none (mkMultiLoan ([] : List Loan) 100).payment -
            (minPays (mkMultiLoan ([] : List Loan) 100).loans).sum)).sum] ∧
    multiLoanPayOne (mkMultiLoan ([] : List Loan) 100) none ≠ .error () := by
  have hok : multiLoanPayOne (mkMultiLoan ([] : List Loan) 100) none =
      .ok ({ mkMultiLoan ([] : List Loan) 100 with
        pays := [0, 0], bals := [0, 0] } : MultiLoan) := by
    rw [multiLoanPayOne_def, if_neg ?_]
    · rfl
    · show ¬ (effAmount none (100 : ℚ) - (0 : ℚ) < 0)
      norm_num [effAmount]
  constructor
  · exact (multiLoanPayOne_error_iff (mkMultiLoan ([] : List Loan) 100)
      none).2 _ hok
  · intro h
    have := (multiLoanPayOne_error_iff (mkMultiLoan ([] : List Loan) 100)
      none).1.mp h
    rw [show (minPays (mkMultiLoan ([] : List Loan) 100).loans).sum =
        (0 : ℚ) from rfl,
      show effAmount none (mkMultiLoan ([] : List Loan) 100).payment =
        (100 : ℚ) from rfl] at this
    norm_num at this

/-- Counterexample input for C3: one debt with configured payment 50 and
balance 100, portfolio payment 1000. -/
def exMl3 : MultiLoan := mkMultiLoan [mkLoan 100 5 50 1 1 1000000] 1000

/-- Counterexample to C3 as stated.  The caller supplies an override of
exactly 0, so the claim's "combined amount (the caller-supplied override)"
is 0, strictly less than the member minimum 50 — the claim demands an
`InsufficientPaymentError`.  The code instead treats the 0 override as
falsy (`if amount:`), substitutes the configured payment 1000, and
succeeds. -/
theorem multiLoan_zero_override_uses_default :
    (∃ ml', multiLoanPayOne exMl3 (some 0) = .ok ml') ∧
    (0 : ℚ) < (minPays exMl3.loans).sum := by
  have hmin : (minPays exMl3.loans).sum = 50 := by
    show (minPays [loanReset (mkLoan 100 5 50 1 1 1000000)]).sum = 50
    simp only [minPays, loanReset, mkLoan, payment_amount, loanBalance,
      List.map_cons, List.map_nil, List.sum_cons, List.sum_nil]
    norm_num [min_def]
  have heff : effAmount (some 0) exMl3.payment = 1000 := by
    show effAmount (some 0) (1000 : ℚ) = 1000
    norm_num [effAmount]
  constructor
  · cases hres : multiLoanPayOne exMl3 (some 0) with
    | ok ml' => exact ⟨ml', rfl⟩
    | error e =>
      rw [multiLoanPayOne_def, if_neg (by rw [heff, hmin]; norm_num)]
        at hres
      simp at hres
  · rw [hmin]
    norm_num

/-! ### C5: the walk order for equal rates -/

instance lexLeTotal (rs : List ℚ) : IsTotal ℕ (lexLe rs) := ⟨by
  intro a b
  unfold lexLe
  rcases lt_trichotomy (rs.getD a 0) (rs.getD b 0) with h | h | h
  · exact Or.inl (Or.inl h)
  · rcases Nat.le_total a b with hab | hab
    · exact Or.inl (Or.inr ⟨h, hab⟩)
    · exact Or.inr (Or.inr ⟨h.symm, hab⟩)
  · exact Or.inr (Or.inl h)⟩

instance lexLeTrans (rs : List ℚ) : IsTrans ℕ (lexLe rs) := ⟨by
  intro a b c hab hbc
  unfold lexLe at *
  rcases hab with h1 | ⟨h1, h1'⟩ <;> rcases hbc with h2 | ⟨h2, h2'⟩
  · exact Or.inl (lt_trans h1 h2)
  · exact Or.inl (h2 ▸ h1)
  · exact Or.inl (h1 ▸ h2)
  · exact Or.inr ⟨h1.trans h2, le_trans h1' h2'⟩⟩

/-- C5 (amended).  In the precomputed walk order
`np.argsort(rates)[::-1]`, two members with equal rates appear in
*reversed* original order: the ascending argsort is stable (equal keys
keep ascending index order), and the subsequent reversal flips them.  The
later debt `j` is therefore walked before the earlier debt `i`, contrary
to the claim's stable (original) order — see
`rateOrder_equal_rates_not_stable` for the concrete refutation. -/
theorem rateOrder_equal_rates_reverse (loans : List Loan) (payment : ℚ)
    (i j : ℕ) (hij : i < j) (hj : j < loans.length)
    (heq : (loans.map (·.rate)).getD i 0 = (loans.map (·.rate)).getD j 0) :
    (mkMultiLoan loans payment).rateOrder.indexOf j <
      (mkMultiLoan loans payment).rateOrder.indexOf i := by
  have hro : (mkMultiLoan loans payment).rateOrder =
      (argsortAsc (loans.map (·.rate))).reverse := rfl
  rw [hro]
  set rs := loans.map (·.rate) with hrs
  have hlen : rs.length = loans.length := by rw [hrs, List.length_map]
  have hsorted : List.Pairwise (lexLe rs) (argsortAsc rs) :=
    List.sorted_insertionSort (lexLe rs) (List.range rs.length)
  have hperm := List.perm_insertionSort (lexLe rs) (List.range rs.length)
  have hpw : List.Pairwise (fun a b => lexLe rs b a)
      ((argsortAsc rs).reverse) := List.pairwise_reverse.mpr hsorted
  have hmemi : i ∈ (argsortAsc rs).reverse := by
    rw [List.mem_reverse]
    exact hperm.mem_iff.mpr (List.mem_range.mpr (by omega))
  have hmemj : j ∈ (argsortAsc rs).reverse := by
    rw [List.mem_reverse]
    exact hperm.mem_iff.mpr (List.mem_range.mpr (by omega))
  have hii := List.indexOf_lt_length.mpr hmemi
  have hjj := List.indexOf_lt_length.mpr hmemj
  have hgi := List.indexOf_get hii
  have hgj := List.indexOf_get hjj
  by_contra hcon
  push_neg at hcon
  have hne : ¬ List.indexOf i ((argsortAsc rs).reverse) =
      List.indexOf j ((argsortAsc rs).reverse) := by
    intro hEq
    have : i = j := by
      rw [← hgi, ← hgj]
      congr 1
      exact Fin.ext hEq
    omega
  have hlt : List.indexOf i ((argsortAsc rs).reverse) <
      List.indexOf j ((argsortAsc rs).reverse) :=
    lt_of_le_of_ne hcon hne
  have hR := List.pairwise_iff_get.mp hpw ⟨_, hii⟩ ⟨_, hjj⟩ hlt
  rw [hgi, hgj] at hR
  unfold lexLe at hR
  rcases hR with h | ⟨h1, h2⟩
  · rw [heq] at h
    exact absurd h (lt_irrefl _)
  · omega

/-- Witness for the amended C5: on a two-debt portfolio with equal rates,
debt 1 is walked before debt 0. -/
theorem rateOrder_equal_rates_reverse_witness :
    (mkMultiLoan [mkLoan 100 5 10 1 1 1000000,
      mkLoan 200 5 20 1 1 1000000] 500).rateOrder.indexOf 1 <
    (mkMultiLoan [mkLoan 100 5 10 1 1 1000000,
      mkLoan 200 5 20 1 1 1000000] 500).rateOrder.indexOf 0 :=
  rateOrder_equal_rates_reverse _ 500 0 1 (by norm_num) (by decide) rfl

/-- Counterexample input for C5: two debts with the same rate 5. -/
def exMl5 : MultiLoan := mkMultiLoan [mkLoan 100 5 10 1 1 1000000,
  mkLoan 200 5 20 1 1 1000000] 500

/-- Counterexample to C5 as stated.  The two members have equal rates, yet
the precomputed walk order is `[1, 0]`: their original relative order is
*not* retained — index 0 is not walked before index 1. -/
theorem rateOrder_equal_rates_not_stable :
    exMl5.rateOrder = [1, 0] ∧
    (exMl5.loans.map (·.rate)).getD 0 0 =
      (exMl5.loans.map (·.rate)).getD 1 0 ∧
    ¬ exMl5.rateOrder.indexOf 0 < exMl5.rateOrder.indexOf 1 := by
  refine ⟨by decide, rfl, by decide⟩

end Multiloan

